import Mathlib

/-!
Verification of the bimatrix game module (`bimatrix.py`).

The module provides three algorithms over an m×n matrix of payoff pairs
`(rowPayoff, colPayoff)`:
  * `pnash`    — enumerates pure Nash equilibria by marking best responses;
  * `ibr`      — iterative best response from a random starting profile;
  * `fictplay` — fictitious play with empirical count vectors.

The matrix is embedded as `List (List (Int × Int))`; payoffs are integers
(the generators produce integers). The internal random draws of `ibr` and
`fictplay` (`random.randint`) are modelled as explicit parameters `r0 c0`
with the bounds `randint` guarantees. Real-number arithmetic of `fictplay`
is modelled over `ℚ`. Python runtime exceptions are modelled by the
`PyErr` type and `Except`-valued top-level wrappers.
-/

namespace Bimatrix

/-- Python exceptions that the module can raise, plus the `InvalidDimension`
error that the design document postulates (no such error class exists in the
code; it is present here only so that statements about it can be made). -/
inductive PyErr where
  | indexError
  | valueError
  | zeroDivisionError
  | invalidDimension
deriving DecidableEq, Repr

/-- Row player's payoff `paymat[i][j][0]`. Out-of-range reads default to `0`;
all theorems only use this accessor at indices the Python code reads within
bounds. -/
def rpay (pm : List (List (Int × Int))) (i j : ℕ) : Int :=
  ((pm.getD i []).getD j (0, 0)).1

/-- Column player's payoff `paymat[i][j][1]`. -/
def cpay (pm : List (List (Int × Int))) (i j : ℕ) : Int :=
  ((pm.getD i []).getD j (0, 0)).2

/-- Validity of a payoff matrix: `m ≥ 1`, `n ≥ 1`, and every row has the
length of row 0 (the Python code takes `n = len(paymat[0])`). -/
def validMat (pm : List (List (Int × Int))) : Prop :=
  0 < pm.length ∧ 0 < (pm.headD []).length ∧
    ∀ row ∈ pm, row.length = (pm.headD []).length

instance (pm : List (List (Int × Int))) : Decidable (validMat pm) := by
  unfold validMat; infer_instance

/-! ## pnash -/

/-- `cMaxPayoff` for row `i` in `pnash`: fold of
`if payoff[1] >= cMaxPayoff then payoff[1]` over the entries of row `i`,
seeded at `0` (lines 85–88). -/
def cMax (pm : List (List (Int × Int))) (i : ℕ) : Int :=
  (pm.getD i []).foldl (fun mx p => if p.2 ≥ mx then p.2 else mx) 0

/-- The boolean array `cMark`: `cMark[i][j]` is set exactly when
`paymat[i][j][1] == cMaxPayoff` for row `i` (lines 90–92). The array is
written once and only read afterwards, so it is embedded as this function. -/
def cMark (pm : List (List (Int × Int))) (i j : ℕ) : Bool :=
  cpay pm i j == cMax pm i

/-- `rMaxPayoff` for column `j` in `pnash`: fold of
`if paymat[i][j][0] >= rMaxPayoff then paymat[i][j][0]` over `i in range(m)`,
seeded at `0` (lines 96–99). -/
def rMax (pm : List (List (Int × Int))) (j : ℕ) : Int :=
  (List.range pm.length).foldl
    (fun mx i => if rpay pm i j ≥ mx then rpay pm i j else mx) 0

/-- `pnash(paymat)` (lines 79–107): for `j in range(n)`, for `i in range(m)`,
append `(i, j)` when `paymat[i][j][0] == rMaxPayoff` and `cMark[i][j]`. -/
def pnash (pm : List (List (Int × Int))) : List (ℕ × ℕ) :=
  let m := pm.length
  let n := (pm.headD []).length
  (List.range n).flatMap (fun j =>
    ((List.range m).filter
        (fun i => (rpay pm i j == rMax pm j) && cMark pm i j)).map
      (fun i => (i, j)))

/-- `pnash` with the Python error behaviour: an empty matrix raises
`IndexError` at `len(paymat[0])`; a matrix with a row shorter than row 0
raises `IndexError` at the unconditional read `paymat[i][j]` for `j` in
`range(n)` inside the marking loop. Rows longer than row 0 do not raise
(`cMax` folds over the whole row, exactly as `for payoff in paymat[i]`). -/
def pnashE (pm : List (List (Int × Int))) : Except PyErr (List (ℕ × ℕ)) :=
  match pm with
  | [] => .error .indexError
  | row0 :: _ =>
    if ∀ row ∈ pm, row0.length ≤ row.length then .ok (pnash pm)
    else .error .indexError

/-! ## ibr -/

/-- One best-response scan (lines 144–149 for the row player, 154–159 for the
column player): running maximum seeded at the current profile's payoff `f r`;
a strictly better index replaces the current choice and bumps `updated` to
`min (updated + 1) 2`. `f` is the payoff of the scanning player as a function
of that player's own action. -/
def scanBR (f : ℕ → Int) (bound r u : ℕ) : ℕ × Int × ℕ :=
  (List.range bound).foldl
    (fun s i => if f i > s.2.1 then (i, f i, min (s.2.2 + 1) 2) else s)
    (r, f r, u)

/-- The mutable state of the `ibr` while-loop (lines 133–136). -/
structure IBRState where
  r : ℕ
  c : ℕ
  stepCount : ℕ
  updated : ℕ
deriving DecidableEq, Repr

/-- The `ibr` while-loop (lines 139–162): while `updated > 0` and
`stepCount < 2 + m*n`, decrement `updated`, run the scanning player's
best-response scan (row player on even `stepCount`, column player on odd),
and increment `stepCount`. The bound `stepCount < 2 + m*n` is realised by
`fuel`, which the callers set to `2 + m*n - stepCount`. -/
def ibrLoop (pm : List (List (Int × Int))) (m n : ℕ) :
    ℕ → IBRState → IBRState
  | 0, s => s
  | fuel + 1, s =>
    if s.updated = 0 then s
    else if s.stepCount % 2 = 0 then
      let t := scanBR (fun i => rpay pm i s.c) m s.r (s.updated - 1)
      ibrLoop pm m n fuel ⟨t.1, s.c, s.stepCount + 1, t.2.2⟩
    else
      let t := scanBR (fun j => cpay pm s.r j) n s.c (s.updated - 1)
      ibrLoop pm m n fuel ⟨s.r, t.1, s.stepCount + 1, t.2.2⟩

/-- The state in which the `ibr` loop terminates, starting from the random
profile `(r0, c0)` with `stepCount = 0` and `updated = 2` (lines 132–136). -/
def ibrFinal (pm : List (List (Int × Int))) (r0 c0 : ℕ) : IBRState :=
  let m := pm.length
  let n := (pm.headD []).length
  ibrLoop pm m n (2 + m * n) ⟨r0, c0, 0, 2⟩

/-- `ibr(paymat)` (lines 109–163) with the random initial profile `(r0, c0)`
passed explicitly: returns the profile of the terminal loop state. -/
def ibr (pm : List (List (Int × Int))) (r0 c0 : ℕ) : ℕ × ℕ :=
  ((ibrFinal pm r0 c0).r, (ibrFinal pm r0 c0).c)

/-- A checked read `paymat[i][j]`: `IndexError` when out of range. -/
def entryE (pm : List (List (Int × Int))) (i j : ℕ) :
    Except PyErr (Int × Int) :=
  match pm.get? i with
  | none => .error .indexError
  | some row =>
    match row.get? j with
    | none => .error .indexError
    | some p => .ok p

/-- `scanBR` with checked matrix reads. -/
def scanBRE (f : ℕ → Except PyErr Int) (bound r u : ℕ) :
    Except PyErr (ℕ × Int × ℕ) := do
  let seed ← f r
  (List.range bound).foldlM
    (fun s i => do
      let v ← f i
      pure (if v > s.2.1 then (i, v, min (s.2.2 + 1) 2) else s))
    (r, seed, u)

/-- The `ibr` loop with checked matrix reads. -/
def ibrLoopE (pm : List (List (Int × Int))) (m n : ℕ) :
    ℕ → IBRState → Except PyErr IBRState
  | 0, s => .ok s
  | fuel + 1, s =>
    if s.updated = 0 then .ok s
    else if s.stepCount % 2 = 0 then do
      let t ← scanBRE (fun i => do pure (← entryE pm i s.c).1) m s.r
        (s.updated - 1)
      ibrLoopE pm m n fuel ⟨t.1, s.c, s.stepCount + 1, t.2.2⟩
    else do
      let t ← scanBRE (fun j => do pure (← entryE pm s.r j).2) n s.c
        (s.updated - 1)
      ibrLoopE pm m n fuel ⟨s.r, t.1, s.stepCount + 1, t.2.2⟩

/-- `ibr` with the Python error behaviour: an empty matrix raises
`IndexError` at `len(paymat[0])` (line 131); `n = 0` makes
`random.randint(0, n-1)` raise `ValueError` (line 132); matrix reads inside
the loop are checked. -/
def ibrE (pm : List (List (Int × Int))) (r0 c0 : ℕ) :
    Except PyErr (ℕ × ℕ) :=
  match pm with
  | [] => .error .indexError
  | row0 :: _ =>
    if row0.length = 0 then .error .valueError
    else do
      let m := pm.length
      let n := row0.length
      let s ← ibrLoopE pm m n (2 + m * n) ⟨r0, c0, 0, 2⟩
      pure (s.r, s.c)

/-- Pure Nash equilibrium of the bimatrix game, by direct re-computation:
no row improves on `r` against `c`, and no column improves on `c`
against `r`. -/
def isPNE (pm : List (List (Int × Int))) (r c : ℕ) : Prop :=
  (∀ i < pm.length, rpay pm i c ≤ rpay pm r c) ∧
    (∀ j < (pm.headD []).length, cpay pm r j ≤ cpay pm r c)

instance (pm : List (List (Int × Int))) (r c : ℕ) :
    Decidable (isPNE pm r c) := by
  unfold isPNE; infer_instance

/-! ## fictplay -/

/-- The choice scan shared by both players of `fictplay`
(lines 198–208 and 214–224): running strict maximum of `f` over
`range bound`, with both the best value and the choice seeded at `0`;
only a strictly greater value replaces the running choice. Returns
`(choice, best value)`. -/
def bestChoice (f : ℕ → ℚ) (bound : ℕ) : ℕ × ℚ :=
  (List.range bound).foldl
    (fun s i => if f i > s.2 then (i, f i) else s) (0, 0)

/-- Expected payoff of row action `i` against the empirical distribution of
column actions (lines 203–205):
`sum over j of (rowCounts[j]/rowCountsSum) * paymat[i][j][0]`. -/
def expRow (pm : List (List (Int × Int))) (rowCounts : List ℕ) (n i : ℕ) :
    ℚ :=
  (List.range n).foldl
    (fun acc j =>
      acc + ((rowCounts.getD j 0 : ℚ) / (rowCounts.sum : ℚ)) *
        (rpay pm i j : ℚ)) 0

/-- Expected payoff of column action `j` against the empirical distribution
of row actions (lines 219–221). -/
def expCol (pm : List (List (Int × Int))) (colCounts : List ℕ) (m j : ℕ) :
    ℚ :=
  (List.range m).foldl
    (fun acc i =>
      acc + ((colCounts.getD i 0 : ℚ) / (colCounts.sum : ℚ)) *
        (cpay pm i j : ℚ)) 0

/-- `rowChoice` of one `fictplay` iteration (lines 198–208). -/
def fpRowChoice (pm : List (List (Int × Int))) (rowCounts : List ℕ)
    (m n : ℕ) : ℕ :=
  (bestChoice (expRow pm rowCounts n) m).1

/-- `colChoice` of one `fictplay` iteration (lines 214–224). -/
def fpColChoice (pm : List (List (Int × Int))) (colCounts : List ℕ)
    (m n : ℕ) : ℕ :=
  (bestChoice (expCol pm colCounts m) n).1

/-- `counts[k] += 1`. -/
def incAt (l : List ℕ) (k : ℕ) : List ℕ :=
  l.set k (l.getD k 0 + 1)

/-- The mutable state of the `fictplay` while-loop. `iterCount` is realised
by the loop fuel. -/
structure FPState where
  rowCounts : List ℕ
  colCounts : List ℕ
  rowDiff : ℚ
  colDiff : ℚ
deriving DecidableEq, Repr

/-- One iteration of the `fictplay` loop (lines 194–237): pick both
players' best pure actions against the opponent's empirical distribution,
compute the frequency drifts of the chosen actions before incrementing, and
increment each count vector at the other player's choice. -/
def fpStep (pm : List (List (Int × Int))) (m n : ℕ) (s : FPState) :
    FPState :=
  let rowChoice := fpRowChoice pm s.rowCounts m n
  let colChoice := fpColChoice pm s.colCounts m n
  let rS : ℚ := (s.rowCounts.sum : ℚ)
  let cS : ℚ := (s.colCounts.sum : ℚ)
  { rowCounts := incAt s.rowCounts colChoice
    colCounts := incAt s.colCounts rowChoice
    rowDiff := |(s.rowCounts.getD colChoice 0 : ℚ) / rS -
      ((s.rowCounts.getD colChoice 0 : ℚ) + 1) / (rS + 1)|
    colDiff := |(s.colCounts.getD rowChoice 0 : ℚ) / cS -
      ((s.colCounts.getD rowChoice 0 : ℚ) + 1) / (cS + 1)| }

/-- The `fictplay` while-loop (line 193): while `iterCount < maxIter` and
`max rowDiff colDiff > epsilon`, run `fpStep`. The fuel is
`maxIter - iterCount`. -/
def fpLoop (pm : List (List (Int × Int))) (m n : ℕ) (ε : ℚ) :
    ℕ → FPState → FPState
  | 0, s => s
  | fuel + 1, s =>
    if max s.rowDiff s.colDiff > ε then fpLoop pm m n ε fuel (fpStep pm m n s)
    else s

/-- The initial `fictplay` state (lines 186–192): zero count vectors of
lengths `n` and `m`, one count at the random initial profile, both drifts
at `1`. -/
def fpInit (m n r0 c0 : ℕ) : FPState :=
  { rowCounts := (List.replicate n 0).set c0 1
    colCounts := (List.replicate m 0).set r0 1
    rowDiff := 1
    colDiff := 1 }

/-- `fictplay(paymat, maxIter, epsilon)` (lines 165–241) with the random
initial profile `(r0, c0)` passed explicitly: run the loop, then normalize
each count vector by its sum (lines 239–241). -/
def fictplay (pm : List (List (Int × Int))) (maxIter : ℕ) (ε : ℚ)
    (r0 c0 : ℕ) : List ℚ × List ℚ :=
  let m := pm.length
  let n := (pm.headD []).length
  let fin := fpLoop pm m n ε maxIter (fpInit m n r0 c0)
  ((List.range m).map
      (fun i => (fin.colCounts.getD i 0 : ℚ) / (fin.colCounts.sum : ℚ)),
    (List.range n).map
      (fun j => (fin.rowCounts.getD j 0 : ℚ) / (fin.rowCounts.sum : ℚ)))

/-- `fictplay` with the Python error behaviour: an empty matrix raises
`IndexError` at `len(paymat[0])` (line 185); `n = 0` makes
`random.randint(0, n-1)` raise `ValueError` (line 188); and when the loop
body runs at least once (`0 < maxIter` and `1 > epsilon`, since both drifts
start at `1`), its very first expected-payoff scan reads `paymat[i][j]` for
every `i < m`, `j < n`, raising `IndexError` iff some row is shorter than
row 0. Longer rows are never read past column `n - 1` and do not raise. -/
def fictplayE (pm : List (List (Int × Int))) (maxIter : ℕ) (ε : ℚ)
    (r0 c0 : ℕ) : Except PyErr (List ℚ × List ℚ) :=
  match pm with
  | [] => .error .indexError
  | row0 :: _ =>
    if row0.length = 0 then .error .valueError
    else if 0 < maxIter ∧ (1 : ℚ) > ε ∧ ∃ row ∈ pm, row.length < row0.length
      then .error .indexError
    else .ok (fictplay pm maxIter ε r0 c0)

/-! ## Lemmas about the zero-seeded maximum folds of `pnash` -/

/-- The seed never exceeds a `pnash`-style running-maximum fold. -/
lemma le_foldMax {α : Type} (g : α → Int) (l : List α) (a : Int) :
    a ≤ l.foldl (fun mx p => if g p ≥ mx then g p else mx) a := by
  induction l generalizing a with
  | nil => exact le_refl a
  | cons h t ih =>
    rw [List.foldl_cons]
    refine le_trans ?_ (ih (if g h ≥ a then g h else a))
    split <;> omega

/-- Every scanned value is below a `pnash`-style running-maximum fold. -/
lemma mem_le_foldMax {α : Type} (g : α → Int) {l : List α} {p : α}
    (hp : p ∈ l) (a : Int) :
    g p ≤ l.foldl (fun mx q => if g q ≥ mx then g q else mx) a := by
  induction l generalizing a with
  | nil => cases hp
  | cons h t ih =>
    rw [List.foldl_cons]
    rcases List.mem_cons.mp hp with rfl | hmem
    · refine le_trans ?_ (le_foldMax g t _)
      split <;> omega
    · exact ih hmem _

/-- A running-maximum fold whose scanned values are all negative stays at a
nonnegative seed. -/
lemma foldMax_of_neg {α : Type} (g : α → Int) (l : List α) (a : Int)
    (ha : 0 ≤ a) (hneg : ∀ p ∈ l, g p < 0) :
    l.foldl (fun mx p => if g p ≥ mx then g p else mx) a = a := by
  induction l with
  | nil => rfl
  | cons h t ih =>
    rw [List.foldl_cons]
    have hh : g h < 0 := hneg h (List.mem_cons_self h t)
    have : ¬ (g h ≥ a) := by omega
    rw [if_neg this]
    exact ih (fun p hp => hneg p (List.mem_cons_of_mem h hp))

/-- An in-range default read is a member of the list. -/
lemma getD_mem {α : Type} {l : List α} {j : ℕ} (h : j < l.length) (d : α) :
    l.getD j d ∈ l := by
  rw [List.getD_eq_getElem?_getD, List.getElem?_eq_getElem h]
  exact List.getElem_mem h

/-- In a valid matrix, every row has the length of row 0. -/
lemma valid_row_length {pm : List (List (Int × Int))} (hv : validMat pm)
    {i : ℕ} (hi : i < pm.length) :
    (pm.getD i []).length = (pm.headD []).length :=
  hv.2.2 _ (getD_mem hi [])

/-- Column player's payoffs in row `i` never exceed `cMax pm i`. -/
lemma cpay_le_cMax {pm : List (List (Int × Int))} (hv : validMat pm)
    {i j : ℕ} (hi : i < pm.length) (hj : j < (pm.headD []).length) :
    cpay pm i j ≤ cMax pm i := by
  have hjr : j < (pm.getD i []).length := by rw [valid_row_length hv hi]; exact hj
  exact mem_le_foldMax Prod.snd (getD_mem hjr (0, 0)) 0

/-- Row player's payoffs in column `j` never exceed `rMax pm j`. -/
lemma rpay_le_rMax (pm : List (List (Int × Int))) {i : ℕ} (j : ℕ)
    (hi : i < pm.length) :
    rpay pm i j ≤ rMax pm j :=
  mem_le_foldMax (fun i => rpay pm i j) (List.mem_range.mpr hi) 0

/-- Unfolding of membership in the result of `pnash`. -/
lemma mem_pnash_iff {pm : List (List (Int × Int))} {i j : ℕ} :
    (i, j) ∈ pnash pm ↔
      i < pm.length ∧ j < (pm.headD []).length ∧
        rpay pm i j = rMax pm j ∧ cMark pm i j = true := by
  simp only [pnash, List.mem_flatMap, List.mem_map, List.mem_filter,
    List.mem_range, Bool.and_eq_true, beq_iff_eq]
  constructor
  · rintro ⟨j', hj', i', ⟨⟨hi', hr, hc⟩, hpair⟩⟩
    obtain ⟨rfl, rfl⟩ := Prod.mk.injEq .. ▸ hpair
    exact ⟨hi', hj', hr, hc⟩
  · rintro ⟨hi, hj, hr, hc⟩
    exact ⟨j, hj, i, ⟨⟨hi, hr, hc⟩, rfl⟩⟩

/-- C1: every profile returned by `pnash` on a valid matrix is within
bounds, and both players' payoffs there equal the true maxima over their
deviations — every returned profile is a pure Nash equilibrium verifiable
by direct re-computation. -/
theorem pnash_sound (pm : List (List (Int × Int))) (hv : validMat pm)
    (i j : ℕ) (hmem : (i, j) ∈ pnash pm) :
    i < pm.length ∧ j < (pm.headD []).length ∧
      (∀ i' < pm.length, rpay pm i' j ≤ rpay pm i j) ∧
      (∀ j' < (pm.headD []).length, cpay pm i j' ≤ cpay pm i j) := by
  obtain ⟨hi, hj, hr, hc⟩ := mem_pnash_iff.mp hmem
  have hcm : cpay pm i j = cMax pm i := by
    have := hc
    unfold cMark at this
    exact beq_iff_eq.mp this
  refine ⟨hi, hj, ?_, ?_⟩
  · intro i' hi'
    rw [hr]
    exact rpay_le_rMax pm j hi'
  · intro j' hj'
    rw [hcm]
    exact cpay_le_cMax hv hi hj'

/-- C1 witness: on the prisoner's dilemma matrix, `(1,1)` is returned and
re-verified as an equilibrium. -/
theorem pnash_sound_witness :
    validMat [[(4, 4), (0, 5)], [(5, 0), (1, 1)]] ∧
      (1, 1) ∈ pnash [[(4, 4), (0, 5)], [(5, 0), (1, 1)]] ∧
      (1 < 2 ∧ 1 < 2 ∧
        (∀ i' < 2, rpay [[(4, 4), (0, 5)], [(5, 0), (1, 1)]] i' 1 ≤
          rpay [[(4, 4), (0, 5)], [(5, 0), (1, 1)]] 1 1) ∧
        (∀ j' < 2, cpay [[(4, 4), (0, 5)], [(5, 0), (1, 1)]] 1 j' ≤
          cpay [[(4, 4), (0, 5)], [(5, 0), (1, 1)]] 1 1)) :=
  ⟨by decide, by decide,
    pnash_sound [[(4, 4), (0, 5)], [(5, 0), (1, 1)]] (by decide) 1 1
      (by decide)⟩

/-- An in-range default read equals the indexed element. -/
lemma getD_eq_getElem {α : Type} {l : List α} {k : ℕ} (h : k < l.length)
    (d : α) : l.getD k d = l[k] := by
  rw [List.getD_eq_getElem?_getD, List.getElem?_eq_getElem h]
  rfl

/-- C10: on a 1×1 matrix `[[(p, q)]]`, `pnash` returns `[(0, 0)]` exactly
when `0 ≤ p` and `0 ≤ q`, and the empty list otherwise — even though the
unique profile of a 1×1 game is always a pure Nash equilibrium. -/
theorem pnash_singleton (p q : ℤ) :
    pnash [[(p, q)]] = if 0 ≤ p ∧ 0 ≤ q then [(0, 0)] else [] := by
  have hsimp : ∀ r : ℤ, r < 0 → (r == 0) = false := fun r hr =>
    beq_eq_false_iff_ne.mpr (by omega)
  rcases le_or_lt 0 p with hp | hp <;> rcases le_or_lt 0 q with hq | hq
  · simp [pnash, rMax, cMax, cMark, rpay, cpay, List.range_succ, hp, hq,
      List.filter, List.flatMap]
  · simp [pnash, rMax, cMax, cMark, rpay, cpay, List.range_succ, hp, hq,
      hq.not_le, List.filter, List.flatMap, hsimp q hq]
  · simp [pnash, rMax, cMax, cMark, rpay, cpay, List.range_succ, hp, hq,
      hp.not_le, List.filter, List.flatMap, hsimp p hp]
  · simp [pnash, rMax, cMax, cMark, rpay, cpay, List.range_succ, hp, hq,
      hp.not_le, hq.not_le, List.filter, List.flatMap, hsimp p hp, hsimp q hq]

/-- C7: because the best-payoff accumulators of `pnash` are seeded at `0`
(not `-∞`): when all of Column's payoffs in row `i` are negative no column
is marked as Column's best response to row `i`; when all of Row's payoffs
in column `j` are negative no profile of column `j` is appended to the
result; and on the all-negative 1×1 matrix the unique profile, a genuine
pure Nash equilibrium, is omitted. -/
theorem pnash_zero_seed_omission (pm : List (List (Int × Int)))
    (hv : validMat pm) (i j : ℕ) (hi : i < pm.length)
    (hj : j < (pm.headD []).length) :
    ((∀ j' < (pm.headD []).length, cpay pm i j' < 0) →
        ∀ j' < (pm.headD []).length, cMark pm i j' = false) ∧
      ((∀ i' < pm.length, rpay pm i' j < 0) →
        ∀ i', (i', j) ∉ pnash pm) ∧
      (pnash [[((-1 : Int), (-1 : Int))]] = [] ∧
        isPNE [[((-1 : Int), (-1 : Int))]] 0 0) := by
  refine ⟨?_, ?_, by decide, by decide⟩
  · intro hneg j' hj'
    have hall : ∀ p ∈ pm.getD i [], p.2 < 0 := by
      intro p hp
      obtain ⟨k, hk, rfl⟩ := List.mem_iff_getElem.mp hp
      have hkn : k < (pm.headD []).length := by
        rw [← valid_row_length hv hi]; exact hk
      have := hneg k hkn
      rwa [cpay, getD_eq_getElem hk] at this
    have hcmax : cMax pm i = 0 := foldMax_of_neg Prod.snd _ 0 le_rfl hall
    have : cpay pm i j' < 0 := hneg j' hj'
    simp only [cMark, hcmax]
    exact beq_eq_false_iff_ne.mpr (by omega)
  · intro hneg i' hmem
    obtain ⟨hi', _, hr, _⟩ := mem_pnash_iff.mp hmem
    have hrmax : rMax pm j = 0 :=
      foldMax_of_neg (fun i => rpay pm i j) _ 0 le_rfl
        (fun k hk => hneg k (List.mem_range.mp hk))
    have := hneg i' hi'
    omega

/-- C7 witness: on an all-negative 2×2 matrix, row 0 marks no column and
column 0 keeps no profile. -/
theorem pnash_zero_seed_omission_witness :
    validMat [[(-1, -1), (-2, -2)], [(-3, -3), (-4, -4)]] ∧
      (∀ j' < 2,
        cMark [[(-1, -1), (-2, -2)], [(-3, -3), (-4, -4)]] 0 j' = false) ∧
      (∀ i', (i', 0) ∉ pnash [[(-1, -1), (-2, -2)], [(-3, -3), (-4, -4)]]) :=
  ⟨by decide,
    fun j' hj' =>
      (pnash_zero_seed_omission [[(-1, -1), (-2, -2)], [(-3, -3), (-4, -4)]]
            (by decide) 0 0 (by decide) (by decide)).1
        (by decide) j' hj',
    (pnash_zero_seed_omission [[(-1, -1), (-2, -2)], [(-3, -3), (-4, -4)]]
          (by decide) 0 0 (by decide) (by decide)).2.1
      (by decide)⟩

/-! ## Lemmas about the best-response scan of `ibr` -/

lemma scanBR_zero (f : ℕ → Int) (r u : ℕ) : scanBR f 0 r u = (r, f r, u) :=
  rfl

lemma scanBR_succ (f : ℕ → Int) (b r u : ℕ) :
    scanBR f (b + 1) r u =
      if f b > (scanBR f b r u).2.1
      then (b, f b, min ((scanBR f b r u).2.2 + 1) 2)
      else scanBR f b r u := by
  simp only [scanBR, List.range_succ, List.foldl_append, List.foldl_cons,
    List.foldl_nil]

/-- The scan's running maximum is the payoff of its current choice. -/
lemma scanBR_fst_eq (f : ℕ → Int) (b r u : ℕ) :
    f (scanBR f b r u).1 = (scanBR f b r u).2.1 := by
  induction b with
  | zero => rfl
  | succ b ih =>
    rw [scanBR_succ]
    split
    · rfl
    · exact ih

/-- Every scanned payoff is at most the scan's final running maximum. -/
lemma scanBR_lt_le (f : ℕ → Int) (b r u : ℕ) :
    ∀ i < b, f i ≤ (scanBR f b r u).2.1 := by
  induction b with
  | zero => omega
  | succ b ih =>
    intro i hi
    rw [scanBR_succ]
    rcases Nat.lt_succ_iff_lt_or_eq.mp hi with hib | rfl
    · have := ih i hib
      split
      · dsimp only
        omega
      · exact this
    · split
      · dsimp only
        omega
      · omega

/-- The scan's choice stays put or lands inside the scanned range. -/
lemma scanBR_choice_bound (f : ℕ → Int) (b r u : ℕ) :
    (scanBR f b r u).1 = r ∨ (scanBR f b r u).1 < b := by
  induction b with
  | zero => exact Or.inl rfl
  | succ b ih =>
    rw [scanBR_succ]
    split
    · exact Or.inr (Nat.lt_succ_self b)
    · rcases ih with h | h
      · exact Or.inl h
      · exact Or.inr (Nat.lt_succ_of_lt h)

/-- The `updated` counter never decreases during a scan and stays `≤ 2`. -/
lemma scanBR_u_le (f : ℕ → Int) (b r u : ℕ) (hu : u ≤ 2) :
    (scanBR f b r u).2.2 ≤ 2 ∧ u ≤ (scanBR f b r u).2.2 := by
  induction b with
  | zero => exact ⟨hu, le_refl u⟩
  | succ b ih =>
    obtain ⟨ih1, ih2⟩ := ih
    rw [scanBR_succ]
    split
    · dsimp only
      omega
    · exact ⟨ih1, ih2⟩

/-- A scan that ends with `updated = 0` never bumped and never moved: the
whole state is untouched, so every scanned payoff was at most the seed. -/
lemma scanBR_u_zero (f : ℕ → Int) (b r u : ℕ)
    (h : (scanBR f b r u).2.2 = 0) : scanBR f b r u = (r, f r, u) := by
  induction b with
  | zero => rfl
  | succ b ih =>
    rw [scanBR_succ] at h ⊢
    by_cases hfb : f b > (scanBR f b r u).2.1
    · rw [if_pos hfb] at h
      dsimp only at h
      exact absurd h (by omega)
    · rw [if_neg hfb] at h ⊢
      exact ih h

/-- Invariant of the `ibr` loop: the profile stays in bounds, `updated`
stays `≤ 2` and equals `2` before the first step, the player who moved last
is at a best response against the current profile, and once `updated` hits
`0` both players are. -/
def IBRInv (pm : List (List (Int × Int))) (m n : ℕ) (s : IBRState) : Prop :=
  s.r < m ∧ s.c < n ∧ s.updated ≤ 2 ∧
    (s.stepCount = 0 → s.updated = 2) ∧
    (0 < s.stepCount →
      if (s.stepCount - 1) % 2 = 0
      then ∀ i < m, rpay pm i s.c ≤ rpay pm s.r s.c
      else ∀ j < n, cpay pm s.r j ≤ cpay pm s.r s.c) ∧
    (s.updated = 0 →
      (∀ i < m, rpay pm i s.c ≤ rpay pm s.r s.c) ∧
        (∀ j < n, cpay pm s.r j ≤ cpay pm s.r s.c))

/-- Unfolding of one even (row player) step of the `ibr` loop. -/
lemma ibrLoop_succ_even (pm : List (List (Int × Int))) (m n fuel : ℕ)
    (s : IBRState) (hu : s.updated ≠ 0) (hpar : s.stepCount % 2 = 0) :
    ibrLoop pm m n (fuel + 1) s =
      ibrLoop pm m n fuel
        ⟨(scanBR (fun i => rpay pm i s.c) m s.r (s.updated - 1)).1, s.c,
          s.stepCount + 1,
          (scanBR (fun i => rpay pm i s.c) m s.r (s.updated - 1)).2.2⟩ := by
  rw [ibrLoop, if_neg hu, if_pos hpar]

/-- Unfolding of one odd (column player) step of the `ibr` loop. -/
lemma ibrLoop_succ_odd (pm : List (List (Int × Int))) (m n fuel : ℕ)
    (s : IBRState) (hu : s.updated ≠ 0) (hpar : ¬ s.stepCount % 2 = 0) :
    ibrLoop pm m n (fuel + 1) s =
      ibrLoop pm m n fuel
        ⟨s.r, (scanBR (fun j => cpay pm s.r j) n s.c (s.updated - 1)).1,
          s.stepCount + 1,
          (scanBR (fun j => cpay pm s.r j) n s.c (s.updated - 1)).2.2⟩ := by
  rw [ibrLoop, if_neg hu, if_neg hpar]

/-- `ibrFinal` unfolded to the loop it runs. -/
lemma ibrFinal_eq (pm : List (List (Int × Int))) (r0 c0 : ℕ) :
    ibrFinal pm r0 c0 =
      ibrLoop pm pm.length (pm.headD []).length
        (2 + pm.length * (pm.headD []).length) ⟨r0, c0, 0, 2⟩ :=
  rfl

/-- The `ibr` loop preserves `IBRInv`. -/
lemma ibrLoop_inv (pm : List (List (Int × Int))) (m n : ℕ) :
    ∀ (fuel : ℕ) (s : IBRState), IBRInv pm m n s →
      IBRInv pm m n (ibrLoop pm m n fuel s) := by
  intro fuel
  induction fuel with
  | zero => exact fun s hs => hs
  | succ fuel ih =>
    intro s hs
    obtain ⟨hr, hc, hu2, h0, hlast, hnash⟩ := hs
    by_cases hu : s.updated = 0
    · rw [ibrLoop, if_pos hu]
      exact ⟨hr, hc, hu2, h0, hlast, hnash⟩
    by_cases hpar : s.stepCount % 2 = 0
    · rw [ibrLoop_succ_even pm m n fuel s hu hpar]
      apply ih
      have htu := scanBR_u_le (fun i => rpay pm i s.c) m s.r
        (s.updated - 1) (by omega)
      have htb := scanBR_choice_bound (fun i => rpay pm i s.c) m s.r
        (s.updated - 1)
      have hteq := scanBR_fst_eq (fun i => rpay pm i s.c) m s.r
        (s.updated - 1)
      have htle := scanBR_lt_le (fun i => rpay pm i s.c) m s.r
        (s.updated - 1)
      unfold IBRInv
      refine ⟨?_, hc, htu.1, ?_, ?_, ?_⟩
      · rcases htb with h | h
        · rw [h]; exact hr
        · exact h
      · intro h; exact absurd h (Nat.succ_ne_zero _)
      · intro _
        have hc1 : (s.stepCount + 1 - 1) % 2 = 0 := by omega
        rw [if_pos hc1]
        intro i hi
        rw [hteq]
        exact htle i hi
      · intro htz
        have hzero := scanBR_u_zero (fun i => rpay pm i s.c) m s.r
          (s.updated - 1) htz
        rw [hzero] at htz htle ⊢
        dsimp only at htz htle ⊢
        have hu1 : s.updated = 1 := by omega
        have hsc : 0 < s.stepCount := by
          rcases Nat.eq_zero_or_pos s.stepCount with h | h
          · have := h0 h; omega
          · exact h
        have hcol := hlast hsc
        rw [if_neg (by omega)] at hcol
        exact ⟨htle, hcol⟩
    · rw [ibrLoop_succ_odd pm m n fuel s hu hpar]
      apply ih
      have htu := scanBR_u_le (fun j => cpay pm s.r j) n s.c
        (s.updated - 1) (by omega)
      have htb := scanBR_choice_bound (fun j => cpay pm s.r j) n s.c
        (s.updated - 1)
      have hteq := scanBR_fst_eq (fun j => cpay pm s.r j) n s.c
        (s.updated - 1)
      have htle := scanBR_lt_le (fun j => cpay pm s.r j) n s.c
        (s.updated - 1)
      unfold IBRInv
      dsimp only
      refine ⟨hr, ?_, htu.1, ?_, ?_, ?_⟩
      · rcases htb with h | h
        · rw [h]; exact hc
        · exact h
      · intro h; exact absurd h (Nat.succ_ne_zero _)
      · intro _
        have hc1 : ¬ (s.stepCount + 1 - 1) % 2 = 0 := by omega
        rw [if_neg hc1]
        intro j hj
        rw [hteq]
        exact htle j hj
      · intro htz
        have hzero := scanBR_u_zero (fun j => cpay pm s.r j) n s.c
          (s.updated - 1) htz
        rw [hzero] at htz htle ⊢
        dsimp only at htz htle ⊢
        have hu1 : s.updated = 1 := by omega
        have hsc : 0 < s.stepCount := by
          rcases Nat.eq_zero_or_pos s.stepCount with h | h
          · have := h0 h; omega
          · exact h
        have hrow := hlast hsc
        rw [if_pos (by omega)] at hrow
        exact ⟨hrow, htle⟩

/-- C3: when the `ibr` loop exits with the `updated` counter at `0`, the
returned profile is a pure Nash equilibrium: no row improves on `r` against
`c` and no column improves on `c` against `r`. -/
theorem ibr_exit_nash (pm : List (List (Int × Int))) (hv : validMat pm)
    (r0 c0 : ℕ) (hr0 : r0 < pm.length)
    (hc0 : c0 < (pm.headD []).length)
    (hu : (ibrFinal pm r0 c0).updated = 0) :
    isPNE pm (ibrFinal pm r0 c0).r (ibrFinal pm r0 c0).c ∧
      ibr pm r0 c0 = ((ibrFinal pm r0 c0).r, (ibrFinal pm r0 c0).c) := by
  have hinit : IBRInv pm pm.length (pm.headD []).length ⟨r0, c0, 0, 2⟩ :=
    ⟨hr0, hc0, le_refl 2, fun _ => rfl,
      fun h => absurd h (Nat.lt_irrefl 0),
      fun h => absurd h (Nat.succ_ne_zero 1)⟩
  have hinv := ibrLoop_inv pm pm.length (pm.headD []).length
    (2 + pm.length * (pm.headD []).length) ⟨r0, c0, 0, 2⟩ hinit
  rw [ibrFinal_eq] at hu
  constructor
  · rw [ibrFinal_eq]
    exact hinv.2.2.2.2.2 hu
  · rfl

/-- C3 witness: on the prisoner\x27s dilemma matrix from start `(0, 0)` the
loop exits with `updated = 0` and the returned profile `(1, 1)` is a pure
Nash equilibrium. -/
theorem ibr_exit_nash_witness :
    validMat [[(4, 4), (0, 5)], [(5, 0), (1, 1)]] ∧
      (ibrFinal [[(4, 4), (0, 5)], [(5, 0), (1, 1)]] 0 0).updated = 0 ∧
      (isPNE [[(4, 4), (0, 5)], [(5, 0), (1, 1)]]
          (ibrFinal [[(4, 4), (0, 5)], [(5, 0), (1, 1)]] 0 0).r
          (ibrFinal [[(4, 4), (0, 5)], [(5, 0), (1, 1)]] 0 0).c ∧
        ibr [[(4, 4), (0, 5)], [(5, 0), (1, 1)]] 0 0 =
          ((ibrFinal [[(4, 4), (0, 5)], [(5, 0), (1, 1)]] 0 0).r,
            (ibrFinal [[(4, 4), (0, 5)], [(5, 0), (1, 1)]] 0 0).c)) :=
  ⟨by decide, by decide,
    ibr_exit_nash [[(4, 4), (0, 5)], [(5, 0), (1, 1)]] (by decide) 0 0
      (by decide) (by decide) (by decide)⟩

/-- The `ibr` loop consumes at most its fuel in steps and stops only by
`updated = 0` or by fuel exhaustion. -/
lemma ibrLoop_exit (pm : List (List (Int × Int))) (m n : ℕ) :
    ∀ (fuel : ℕ) (s : IBRState),
      (ibrLoop pm m n fuel s).stepCount ≤ s.stepCount + fuel ∧
        ((ibrLoop pm m n fuel s).updated = 0 ∨
          (ibrLoop pm m n fuel s).stepCount = s.stepCount + fuel) := by
  intro fuel
  induction fuel with
  | zero =>
    intro s
    rw [ibrLoop]
    exact ⟨by omega, Or.inr (by omega)⟩
  | succ fuel ih =>
    intro s
    by_cases hu : s.updated = 0
    · rw [ibrLoop, if_pos hu]
      exact ⟨by omega, Or.inl hu⟩
    by_cases hpar : s.stepCount % 2 = 0
    · rw [ibrLoop_succ_even pm m n fuel s hu hpar]
      have := ih ⟨(scanBR (fun i => rpay pm i s.c) m s.r (s.updated - 1)).1,
        s.c, s.stepCount + 1,
        (scanBR (fun i => rpay pm i s.c) m s.r (s.updated - 1)).2.2⟩
      dsimp only at this
      exact ⟨by omega, by omega⟩
    · rw [ibrLoop_succ_odd pm m n fuel s hu hpar]
      have := ih ⟨s.r,
        (scanBR (fun j => cpay pm s.r j) n s.c (s.updated - 1)).1,
        s.stepCount + 1,
        (scanBR (fun j => cpay pm s.r j) n s.c (s.updated - 1)).2.2⟩
      dsimp only at this
      exact ⟨by omega, by omega⟩

/-- C4: `ibr` always terminates: the loop takes at most `m*n + 2` steps,
stops exactly when `updated` reaches `0` or the step counter reaches
`m*n + 2`, and `ibr` returns the profile of the terminal state. -/
theorem ibr_terminates (pm : List (List (Int × Int))) (hv : validMat pm)
    (r0 c0 : ℕ) (hr0 : r0 < pm.length)
    (hc0 : c0 < (pm.headD []).length) :
    (ibrFinal pm r0 c0).stepCount ≤
        2 + pm.length * (pm.headD []).length ∧
      ((ibrFinal pm r0 c0).updated = 0 ∨
        (ibrFinal pm r0 c0).stepCount =
          2 + pm.length * (pm.headD []).length) ∧
      ibr pm r0 c0 = ((ibrFinal pm r0 c0).r, (ibrFinal pm r0 c0).c) := by
  have h := ibrLoop_exit pm pm.length (pm.headD []).length
    (2 + pm.length * (pm.headD []).length) ⟨r0, c0, 0, 2⟩
  dsimp only at h
  rw [ibrFinal_eq]
  exact ⟨by omega, by omega, rfl⟩

/-- C4 witness: on the matching-pennies matrix from start `(0, 0)` the loop
stops by exhausting the step cap `2 + 2*2 = 6`. -/
theorem ibr_terminates_witness :
    validMat [[(1, -1), (-1, 1)], [(-1, 1), (1, -1)]] ∧
      ((ibrFinal [[(1, -1), (-1, 1)], [(-1, 1), (1, -1)]] 0 0).stepCount ≤
          2 + 2 * 2 ∧
        ((ibrFinal [[(1, -1), (-1, 1)], [(-1, 1), (1, -1)]] 0 0).updated =
            0 ∨
          (ibrFinal [[(1, -1), (-1, 1)], [(-1, 1), (1, -1)]] 0
              0).stepCount = 2 + 2 * 2) ∧
        ibr [[(1, -1), (-1, 1)], [(-1, 1), (1, -1)]] 0 0 =
          ((ibrFinal [[(1, -1), (-1, 1)], [(-1, 1), (1, -1)]] 0 0).r,
            (ibrFinal [[(1, -1), (-1, 1)], [(-1, 1), (1, -1)]] 0 0).c)) :=
  ⟨by decide,
    ibr_terminates [[(1, -1), (-1, 1)], [(-1, 1), (1, -1)]] (by decide) 0 0
      (by decide) (by decide)⟩

/-! ## Lemmas about the choice scan and the count vectors of `fictplay` -/

/-- Unfolding of the choice scan by one action. -/
lemma bestChoice_succ (f : ℕ → ℚ) (b : ℕ) :
    bestChoice f (b + 1) =
      if f b > (bestChoice f b).2 then (b, f b) else bestChoice f b := by
  simp only [bestChoice, List.range_succ, List.foldl_append, List.foldl_cons,
    List.foldl_nil]

/-- Full characterisation of the zero-seeded choice scan: the running best
value is nonnegative and dominates every scanned value; and either it is
still the seed `0` with the choice still at action `0`, or it is positive
and the choice is the first action attaining it. -/
lemma bestChoice_spec (f : ℕ → ℚ) (b : ℕ) :
    0 ≤ (bestChoice f b).2 ∧
      (∀ i < b, f i ≤ (bestChoice f b).2) ∧
      (((bestChoice f b).2 = 0 ∧ (bestChoice f b).1 = 0) ∨
        (0 < (bestChoice f b).2 ∧ (bestChoice f b).1 < b ∧
          f (bestChoice f b).1 = (bestChoice f b).2 ∧
          ∀ i < (bestChoice f b).1, f i < (bestChoice f b).2)) := by
  induction b with
  | zero => exact ⟨le_refl 0, fun i hi => absurd hi (Nat.not_lt_zero i), Or.inl ⟨rfl, rfl⟩⟩
  | succ b ih =>
    obtain ⟨ih0, ih1, ih2⟩ := ih
    rw [bestChoice_succ]
    by_cases hfb : f b > (bestChoice f b).2
    · rw [if_pos hfb]
      dsimp only
      refine ⟨le_of_lt (lt_of_le_of_lt ih0 hfb), ?_,
        Or.inr ⟨lt_of_le_of_lt ih0 hfb, Nat.lt_succ_self b, rfl, ?_⟩⟩
      · intro i hi
        rcases Nat.lt_succ_iff_lt_or_eq.mp hi with h | rfl
        · exact le_of_lt (lt_of_le_of_lt (ih1 i h) hfb)
        · exact le_refl (f i)
      · intro i hi
        exact lt_of_le_of_lt (ih1 i hi) hfb
    · rw [if_neg hfb]
      refine ⟨ih0, ?_, ?_⟩
      · intro i hi
        rcases Nat.lt_succ_iff_lt_or_eq.mp hi with h | rfl
        · exact ih1 i h
        · exact not_lt.mp hfb
      · rcases ih2 with h | ⟨h1, h2, h3, h4⟩
        · exact Or.inl h
        · exact Or.inr ⟨h1, Nat.lt_succ_of_lt h2, h3, h4⟩

/-- The choice scan lands inside a nonempty range. -/
lemma bestChoice_lt (f : ℕ → ℚ) {b : ℕ} (hb : 0 < b) :
    (bestChoice f b).1 < b := by
  rcases (bestChoice_spec f b).2.2 with ⟨_, h⟩ | ⟨_, h, _⟩
  · rw [h]; exact hb
  · exact h

/-- C8: in every `fictplay` iteration each player's action is selected by
the zero-seeded strict-maximum scan over expected payoffs: when some
expected payoff is positive the choice is the lowest-indexed maximiser,
and when all expected payoffs are `≤ 0` the choice stays at action `0`. -/
theorem fp_choice_rule (pm : List (List (Int × Int)))
    (rowCounts colCounts : List ℕ) (m n : ℕ) :
    (((∃ i < m, 0 < expRow pm rowCounts n i) →
        fpRowChoice pm rowCounts m n < m ∧
          (∀ i < m, expRow pm rowCounts n i ≤
            expRow pm rowCounts n (fpRowChoice pm rowCounts m n)) ∧
          (∀ i < fpRowChoice pm rowCounts m n,
            expRow pm rowCounts n i <
              expRow pm rowCounts n (fpRowChoice pm rowCounts m n))) ∧
      ((∀ i < m, expRow pm rowCounts n i ≤ 0) →
        fpRowChoice pm rowCounts m n = 0)) ∧
    (((∃ j < n, 0 < expCol pm colCounts m j) →
        fpColChoice pm colCounts m n < n ∧
          (∀ j < n, expCol pm colCounts m j ≤
            expCol pm colCounts m (fpColChoice pm colCounts m n)) ∧
          (∀ j < fpColChoice pm colCounts m n,
            expCol pm colCounts m j <
              expCol pm colCounts m (fpColChoice pm colCounts m n))) ∧
      ((∀ j < n, expCol pm colCounts m j ≤ 0) →
        fpColChoice pm colCounts m n = 0)) := by
  constructor
  · obtain ⟨h0, h1, h2⟩ := bestChoice_spec (expRow pm rowCounts n) m
    constructor
    · rintro ⟨i, hi, hpos⟩
      have hmx : 0 < (bestChoice (expRow pm rowCounts n) m).2 :=
        lt_of_lt_of_le hpos (h1 i hi)
      rcases h2 with ⟨hz, _⟩ | ⟨_, hlt, heq, hfirst⟩
      · rw [hz] at hmx; exact absurd hmx (lt_irrefl 0)
      · unfold fpRowChoice
        refine ⟨hlt, ?_, ?_⟩
        · intro i' hi'; rw [heq]; exact h1 i' hi'
        · intro i' hi'; rw [heq]; exact hfirst i' hi'
    · intro hall
      rcases h2 with ⟨_, hz⟩ | ⟨hpos, hlt, heq, _⟩
      · exact hz
      · have := hall _ hlt
        rw [heq] at this
        exact absurd (lt_of_lt_of_le hpos this) (lt_irrefl 0)
  · obtain ⟨h0, h1, h2⟩ := bestChoice_spec (expCol pm colCounts m) n
    constructor
    · rintro ⟨j, hj, hpos⟩
      have hmx : 0 < (bestChoice (expCol pm colCounts m) n).2 :=
        lt_of_lt_of_le hpos (h1 j hj)
      rcases h2 with ⟨hz, _⟩ | ⟨_, hlt, heq, hfirst⟩
      · rw [hz] at hmx; exact absurd hmx (lt_irrefl 0)
      · unfold fpColChoice
        refine ⟨hlt, ?_, ?_⟩
        · intro j' hj'; rw [heq]; exact h1 j' hj'
        · intro j' hj'; rw [heq]; exact hfirst j' hj'
    · intro hall
      rcases h2 with ⟨_, hz⟩ | ⟨hpos, hlt, heq, _⟩
      · exact hz
      · have := hall _ hlt
        rw [heq] at this
        exact absurd (lt_of_lt_of_le hpos this) (lt_irrefl 0)

/-- C8 witness: with a single positive payoff, the expected payoff of the
unique action is positive and the choice rule picks it for both players. -/
theorem fp_choice_rule_witness :
    (∃ i < 1, 0 < expRow [[(1, 1)]] [1] 1 i) ∧
      fpRowChoice [[(1, 1)]] [1] 1 1 < 1 ∧
      (∃ j < 1, 0 < expCol [[(1, 1)]] [1] 1 j) ∧
      fpColChoice [[(1, 1)]] [1] 1 1 < 1 :=
  ⟨⟨0, Nat.zero_lt_one, by norm_num [expRow, rpay, List.range_succ]⟩,
    ((fp_choice_rule [[(1, 1)]] [1] [1] 1 1).1.1
        ⟨0, Nat.zero_lt_one, by norm_num [expRow, rpay, List.range_succ]⟩).1,
    ⟨0, Nat.zero_lt_one, by norm_num [expCol, cpay, List.range_succ]⟩,
    ((fp_choice_rule [[(1, 1)]] [1] [1] 1 1).2.1
        ⟨0, Nat.zero_lt_one, by norm_num [expCol, cpay, List.range_succ]⟩).1⟩

/-- `incAt` preserves the length of a count vector. -/
lemma incAt_length (l : List ℕ) (k : ℕ) : (incAt l k).length = l.length :=
  List.length_set l k _

/-- An in-range increment raises the sum of a count vector by exactly 1. -/
lemma incAt_sum (l : List ℕ) (k : ℕ) (hk : k < l.length) :
    (incAt l k).sum = l.sum + 1 := by
  induction l generalizing k with
  | nil => exact absurd hk (Nat.not_lt_zero k)
  | cons a t ih =>
    cases k with
    | zero =>
      simp only [incAt, List.set_cons_zero, List.getD_cons_zero,
        List.sum_cons]
      omega
    | succ k =>
      have := ih k (by simpa using hk)
      simp only [incAt, List.set_cons_succ, List.getD_cons_succ,
        List.sum_cons] at this ⊢
      omega

/-- Seeding a single count in a zero vector gives sum 1. -/
lemma sum_replicate_set_one (n c0 : ℕ) (hc0 : c0 < n) :
    ((List.replicate n 0).set c0 1).sum = 1 := by
  induction n generalizing c0 with
  | zero => exact absurd hc0 (Nat.not_lt_zero c0)
  | succ n ih =>
    cases c0 with
    | zero => simp [List.replicate_succ]
    | succ c0 =>
      have := ih c0 (by omega)
      simp only [List.replicate_succ, List.set_cons_succ, List.sum_cons,
        this]

/-- Lengths and sums of the count vectors across one `fictplay` step:
each vector keeps its length and its sum grows by exactly 1. -/
lemma fpStep_counts (pm : List (List (Int × Int))) (m n : ℕ)
    (hm : 0 < m) (hn : 0 < n) (s : FPState)
    (hrl : s.rowCounts.length = n) (hcl : s.colCounts.length = m) :
    (fpStep pm m n s).rowCounts.length = n ∧
      (fpStep pm m n s).colCounts.length = m ∧
      (fpStep pm m n s).rowCounts.sum = s.rowCounts.sum + 1 ∧
      (fpStep pm m n s).colCounts.sum = s.colCounts.sum + 1 := by
  have hcc : fpColChoice pm s.colCounts m n < n := bestChoice_lt _ hn
  have hrc : fpRowChoice pm s.rowCounts m n < m := bestChoice_lt _ hm
  unfold fpStep
  refine ⟨?_, ?_, ?_, ?_⟩
  · rw [incAt_length]; exact hrl
  · rw [incAt_length]; exact hcl
  · exact incAt_sum _ _ (by rw [hrl]; exact hcc)
  · exact incAt_sum _ _ (by rw [hcl]; exact hrc)

/-- Lengths and sums of the count vectors after `k` `fictplay` steps from
the seeded initial state: lengths stay `n` and `m`, sums are exactly
`k + 1`. -/
lemma fpIterate_counts (pm : List (List (Int × Int))) (m n : ℕ)
    (hm : 0 < m) (hn : 0 < n) (r0 c0 : ℕ) (hr0 : r0 < m) (hc0 : c0 < n) :
    ∀ k : ℕ,
      ((fpStep pm m n)^[k] (fpInit m n r0 c0)).rowCounts.length = n ∧
        ((fpStep pm m n)^[k] (fpInit m n r0 c0)).colCounts.length = m ∧
        ((fpStep pm m n)^[k] (fpInit m n r0 c0)).rowCounts.sum = k + 1 ∧
        ((fpStep pm m n)^[k] (fpInit m n r0 c0)).colCounts.sum = k + 1 := by
  intro k
  induction k with
  | zero =>
    refine ⟨?_, ?_, ?_, ?_⟩ <;>
      simp [fpInit, sum_replicate_set_one n c0 hc0,
        sum_replicate_set_one m r0 hr0]
  | succ k ih =>
    obtain ⟨ih1, ih2, ih3, ih4⟩ := ih
    rw [Function.iterate_succ_apply']
    obtain ⟨h1, h2, h3, h4⟩ := fpStep_counts pm m n hm hn _ ih1 ih2
    exact ⟨h1, h2, by omega, by omega⟩

/-- The `fictplay` loop only ever applies `fpStep`: its result is some
iterate of `fpStep`, with index at most the fuel. -/
lemma fpLoop_iterate (pm : List (List (Int × Int))) (m n : ℕ) (ε : ℚ) :
    ∀ (fuel : ℕ) (s : FPState), ∃ j ≤ fuel,
      fpLoop pm m n ε fuel s = (fpStep pm m n)^[j] s := by
  intro fuel
  induction fuel with
  | zero => exact fun s => ⟨0, le_refl 0, rfl⟩
  | succ fuel ih =>
    intro s
    by_cases hcond : max s.rowDiff s.colDiff > ε
    · obtain ⟨j, hj, heq⟩ := ih (fpStep pm m n s)
      refine ⟨j + 1, Nat.succ_le_succ hj, ?_⟩
      rw [fpLoop, if_pos hcond, heq, Function.iterate_succ_apply]
    · refine ⟨0, Nat.zero_le _, ?_⟩
      rw [fpLoop, if_neg hcond]
      rfl

/-- C6: both count vectors are seeded with exactly one count at the random
initial profile and each step increments each of them exactly once, so
after `k` steps every normalizing sum equals `k + 1 ≥ 1` and is nonzero as
a rational — no division by zero can occur in `fictplay`; and every state
the loop reaches is such an iterate. -/
theorem fp_counts_positive (pm : List (List (Int × Int)))
    (hv : validMat pm) (r0 c0 : ℕ) (hr0 : r0 < pm.length)
    (hc0 : c0 < (pm.headD []).length) :
    (fpInit pm.length (pm.headD []).length r0 c0).rowCounts.sum = 1 ∧
      (fpInit pm.length (pm.headD []).length r0 c0).colCounts.sum = 1 ∧
      (∀ k : ℕ,
        ((fpStep pm pm.length (pm.headD []).length)^[k]
            (fpInit pm.length (pm.headD []).length r0 c0)).rowCounts.sum =
          k + 1 ∧
        ((fpStep pm pm.length (pm.headD []).length)^[k]
            (fpInit pm.length (pm.headD []).length r0 c0)).colCounts.sum =
          k + 1 ∧
        (((((fpStep pm pm.length (pm.headD []).length)^[k]
            (fpInit pm.length (pm.headD []).length r0 c0)).rowCounts.sum :
          ℕ) : ℚ)) ≠ 0 ∧
        (((((fpStep pm pm.length (pm.headD []).length)^[k]
            (fpInit pm.length (pm.headD []).length r0 c0)).colCounts.sum :
          ℕ) : ℚ)) ≠ 0) ∧
      (∀ (maxIter : ℕ) (ε : ℚ), ∃ j ≤ maxIter,
        fpLoop pm pm.length (pm.headD []).length ε maxIter
            (fpInit pm.length (pm.headD []).length r0 c0) =
          (fpStep pm pm.length (pm.headD []).length)^[j]
            (fpInit pm.length (pm.headD []).length r0 c0)) := by
  obtain ⟨hm, hn, -⟩ := hv
  have hiter := fpIterate_counts pm pm.length (pm.headD []).length hm hn
    r0 c0 hr0 hc0
  refine ⟨(hiter 0).2.2.1, (hiter 0).2.2.2, ?_, ?_⟩
  · intro k
    obtain ⟨-, -, h3, h4⟩ := hiter k
    refine ⟨h3, h4, ?_, ?_⟩
    · rw [h3]; exact_mod_cast Nat.succ_ne_zero k
    · rw [h4]; exact_mod_cast Nat.succ_ne_zero k
  · intro maxIter ε
    exact fpLoop_iterate pm pm.length (pm.headD []).length ε maxIter _

/-- C6 witness: on the 1×1 matrix, after 2 steps both sums are 3. -/
theorem fp_counts_positive_witness :
    validMat [[(1, 1)]] ∧
      ((fpStep [[(1, 1)]] 1 1)^[2] (fpInit 1 1 0 0)).rowCounts.sum =
        2 + 1 ∧
      ((fpStep [[(1, 1)]] 1 1)^[2] (fpInit 1 1 0 0)).colCounts.sum =
        2 + 1 :=
  ⟨by decide,
    ((fp_counts_positive [[(1, 1)]] (by decide) 0 0 (by decide)
          (by decide)).2.2.1 2).1,
    ((fp_counts_positive [[(1, 1)]] (by decide) 0 0 (by decide)
          (by decide)).2.2.1 2).2.1⟩

/-- Reading a list back off by its indices. -/
lemma map_range_getD (l : List ℕ) :
    (List.range l.length).map (fun i => l.getD i 0) = l := by
  induction l with
  | nil => rfl
  | cons a t ih =>
    rw [List.length_cons, List.range_succ_eq_map, List.map_cons,
      List.map_map]
    have h2 : ∀ i ∈ List.range t.length,
        ((fun i => (a :: t).getD i 0) ∘ Nat.succ) i = t.getD i 0 := by
      intro i _
      show (a :: t).getD (i + 1) 0 = t.getD i 0
      exact List.getD_cons_succ
    rw [List.map_congr_left h2, ih]
    rfl

/-- Sum of a division-by-a-constant image of a count vector. -/
lemma sum_map_div_nat (l : List ℕ) (S : ℚ) :
    (l.map (fun x : ℕ => (x : ℚ) / S)).sum = (l.sum : ℚ) / S := by
  induction l with
  | nil => simp
  | cons a t ih =>
    rw [List.map_cons, List.sum_cons, ih, List.sum_cons]
    push_cast
    rw [add_div]

/-- Sum of the normalized empirical distribution read off by indices. -/
lemma sum_range_map_getD_div (l : List ℕ) (S : ℚ) :
    ((List.range l.length).map (fun i => (l.getD i 0 : ℚ) / S)).sum =
      (l.sum : ℚ) / S := by
  have h : (fun i => (l.getD i 0 : ℚ) / S) =
      (fun x : ℕ => (x : ℚ) / S) ∘ (fun i => l.getD i 0) := rfl
  rw [h, ← List.map_map, map_range_getD, sum_map_div_nat]

/-- C5: for every valid matrix, iteration budget, tolerance and starting
profile, `fictplay` returns two lists of lengths `m` and `n` whose entries
are nonnegative rationals summing exactly to 1. -/
theorem fictplay_distributions (pm : List (List (Int × Int)))
    (hv : validMat pm) (maxIter : ℕ) (ε : ℚ) (r0 c0 : ℕ)
    (hr0 : r0 < pm.length) (hc0 : c0 < (pm.headD []).length) :
    (fictplay pm maxIter ε r0 c0).1.length = pm.length ∧
      (fictplay pm maxIter ε r0 c0).2.length = (pm.headD []).length ∧
      (∀ x ∈ (fictplay pm maxIter ε r0 c0).1, 0 ≤ x) ∧
      (∀ x ∈ (fictplay pm maxIter ε r0 c0).2, 0 ≤ x) ∧
      (fictplay pm maxIter ε r0 c0).1.sum = 1 ∧
      (fictplay pm maxIter ε r0 c0).2.sum = 1 := by
  obtain ⟨hm, hn, -⟩ := hv
  obtain ⟨j, -, hloop⟩ := fpLoop_iterate pm pm.length (pm.headD []).length
    ε maxIter (fpInit pm.length (pm.headD []).length r0 c0)
  obtain ⟨hl1, hl2, hs1, hs2⟩ := fpIterate_counts pm pm.length
    (pm.headD []).length hm hn r0 c0 hr0 hc0 j
  simp only [fictplay]
  rw [hloop]
  generalize hgen : (fpStep pm pm.length (pm.headD []).length)^[j]
    (fpInit pm.length (pm.headD []).length r0 c0) = fin
    at hl1 hl2 hs1 hs2
  refine ⟨by simp, by simp, ?_, ?_, ?_, ?_⟩
  · intro x hx
    obtain ⟨i, -, rfl⟩ := List.mem_map.mp hx
    apply div_nonneg (Nat.cast_nonneg _)
    rw [hs2]
    positivity
  · intro x hx
    obtain ⟨i, -, rfl⟩ := List.mem_map.mp hx
    apply div_nonneg (Nat.cast_nonneg _)
    rw [hs1]
    positivity
  · rw [← hl2, sum_range_map_getD_div, div_self]
    rw [hs2]
    exact_mod_cast Nat.succ_ne_zero j
  · rw [← hl1, sum_range_map_getD_div, div_self]
    rw [hs1]
    exact_mod_cast Nat.succ_ne_zero j

/-- C5 witness: on the 1×1 matrix with budget 2, both returned
distributions are `[1]`. -/
theorem fictplay_distributions_witness :
    validMat [[(1, 1)]] ∧
      (fictplay [[(1, 1)]] 2 (1 / 1000) 0 0).1.length = 1 ∧
      (fictplay [[(1, 1)]] 2 (1 / 1000) 0 0).2.length = 1 ∧
      (∀ x ∈ (fictplay [[(1, 1)]] 2 (1 / 1000) 0 0).1, 0 ≤ x) ∧
      (fictplay [[(1, 1)]] 2 (1 / 1000) 0 0).1.sum = 1 ∧
      (fictplay [[(1, 1)]] 2 (1 / 1000) 0 0).2.sum = 1 :=
  ⟨by decide,
    (fictplay_distributions [[(1, 1)]] (by decide) 2 (1 / 1000) 0 0
        (by decide) (by decide)).1,
    (fictplay_distributions [[(1, 1)]] (by decide) 2 (1 / 1000) 0 0
        (by decide) (by decide)).2.1,
    (fictplay_distributions [[(1, 1)]] (by decide) 2 (1 / 1000) 0 0
        (by decide) (by decide)).2.2.1,
    (fictplay_distributions [[(1, 1)]] (by decide) 2 (1 / 1000) 0 0
        (by decide) (by decide)).2.2.2.2.1,
    (fictplay_distributions [[(1, 1)]] (by decide) 2 (1 / 1000) 0 0
        (by decide) (by decide)).2.2.2.2.2⟩

/-! ## Error behaviour: no dimension validation exists -/

/-- `foldlM` over `Except` collapses to a pure `foldl` when every step
succeeds. -/
lemma foldlM_ok {α β : Type} (F : β → α → Except PyErr β) (f : β → α → β)
    (l : List α) (hall : ∀ s a, a ∈ l → F s a = .ok (f s a)) :
    ∀ s, l.foldlM F s = .ok (l.foldl f s) := by
  induction l with
  | nil => exact fun s => rfl
  | cons h t ih =>
    intro s
    rw [List.foldlM_cons, hall s h (List.mem_cons_self h t)]
    show t.foldlM F (f s h) = .ok (t.foldl f (f s h))
    exact ih (fun s a ha => hall s a (List.mem_cons_of_mem h ha)) (f s h)

/-- On a valid matrix, in-bounds checked reads succeed. -/
lemma entryE_ok {pm : List (List (Int × Int))} (hv : validMat pm)
    {i j : ℕ} (hi : i < pm.length) (hj : j < (pm.headD []).length) :
    entryE pm i j = .ok ((pm.getD i []).getD j (0, 0)) := by
  have h1 : pm.get? i = some (pm.getD i []) := by
    rw [List.get?_eq_getElem?, List.getElem?_eq_getElem hi,
      getD_eq_getElem hi]
  have hjr : j < (pm.getD i []).length := by
    rw [valid_row_length hv hi]; exact hj
  have h2 : (pm.getD i []).get? j =
      some ((pm.getD i []).getD j (0, 0)) := by
    rw [List.get?_eq_getElem?, List.getElem?_eq_getElem hjr,
      getD_eq_getElem hjr]
  simp only [entryE, h1, h2]

/-- A checked scan collapses to the pure scan when every read succeeds. -/
lemma scanBRE_ok (fE : ℕ → Except PyErr Int) (fp : ℕ → Int)
    (bound r u : ℕ) (hall : ∀ i, i < bound ∨ i = r → fE i = .ok (fp i)) :
    scanBRE fE bound r u = .ok (scanBR fp bound r u) := by
  unfold scanBRE scanBR
  rw [hall r (Or.inr rfl)]
  show (List.range bound).foldlM _ (r, fp r, u) = _
  apply foldlM_ok
  intro s a ha
  rw [hall a (Or.inl (List.mem_range.mp ha))]
  rfl

/-- On a valid matrix with an in-bounds profile, the checked `ibr` loop
collapses to the pure loop. -/
lemma ibrLoopE_ok (pm : List (List (Int × Int))) (hv : validMat pm)
    (m n : ℕ) (hm : m = pm.length) (hn : n = (pm.headD []).length) :
    ∀ (fuel : ℕ) (s : IBRState), s.r < m → s.c < n →
      ibrLoopE pm m n fuel s = .ok (ibrLoop pm m n fuel s) := by
  subst hm hn
  intro fuel
  induction fuel with
  | zero => exact fun s _ _ => rfl
  | succ fuel ih =>
    intro s hr hc
    by_cases hu : s.updated = 0
    · rw [ibrLoopE, if_pos hu, ibrLoop, if_pos hu]
    by_cases hpar : s.stepCount % 2 = 0
    · rw [ibrLoopE, if_neg hu, if_pos hpar,
        ibrLoop_succ_even pm pm.length (pm.headD []).length fuel s hu hpar]
      have hscan := scanBRE_ok (fun i => do pure (← entryE pm i s.c).1)
        (fun i => rpay pm i s.c) pm.length s.r (s.updated - 1) ?_
      · rw [hscan]
        have hb := scanBR_choice_bound (fun i => rpay pm i s.c) pm.length
          s.r (s.updated - 1)
        refine ih _ ?_ hc
        rcases hb with h | h
        · rw [h]; exact hr
        · exact h
      · intro i hi
        have hib : i < pm.length := by
          rcases hi with h | rfl
          · exact h
          · exact hr
        dsimp only
        rw [entryE_ok hv hib hc]
        rfl
    · rw [ibrLoopE, if_neg hu, if_neg hpar,
        ibrLoop_succ_odd pm pm.length (pm.headD []).length fuel s hu hpar]
      have hscan := scanBRE_ok (fun j => do pure (← entryE pm s.r j).2)
        (fun j => cpay pm s.r j) (pm.headD []).length s.c
        (s.updated - 1) ?_
      · rw [hscan]
        have hb := scanBR_choice_bound (fun j => cpay pm s.r j)
          (pm.headD []).length s.c (s.updated - 1)
        refine ih _ hr ?_
        rcases hb with h | h
        · rw [h]; exact hc
        · exact h
      · intro j hj
        have hjb : j < (pm.headD []).length := by
          rcases hj with h | rfl
          · exact h
          · exact hc
        dsimp only
        rw [entryE_ok hv hr hjb]
        rfl

/-- On a valid matrix with an in-bounds starting profile, the checked
`ibr` succeeds and agrees with the pure `ibr`. -/
lemma ibrE_eq_ibr (pm : List (List (Int × Int))) (hv : validMat pm)
    (r0 c0 : ℕ) (hr0 : r0 < pm.length)
    (hc0 : c0 < (pm.headD []).length) :
    ibrE pm r0 c0 = .ok (ibr pm r0 c0) := by
  rcases pm with _ | ⟨row0, rest⟩
  · exact absurd hv.1 (lt_irrefl 0)
  have hn0 : ¬ row0.length = 0 := by
    have := hv.2.1
    simp only [List.headD_cons] at this
    omega
  have hloop := ibrLoopE_ok (row0 :: rest) hv (row0 :: rest).length
    row0.length rfl rfl
    (2 + (row0 :: rest).length * row0.length) ⟨r0, c0, 0, 2⟩ hr0 hc0
  simp only [ibrE]
  rw [if_neg hn0, hloop]
  rfl

/-- On a valid matrix, the checked `pnash` succeeds and agrees with the
pure `pnash`. -/
lemma pnashE_eq_pnash (pm : List (List (Int × Int))) (hv : validMat pm) :
    pnashE pm = .ok (pnash pm) := by
  rcases pm with _ | ⟨row0, rest⟩
  · exact absurd hv.1 (lt_irrefl 0)
  simp only [pnashE]
  rw [if_pos]
  intro row hrow
  have := hv.2.2 row hrow
  simp only [List.headD_cons] at this
  omega

/-- On a valid matrix with an in-bounds starting profile, the checked
`fictplay` succeeds and agrees with the pure `fictplay`. -/
lemma fictplayE_eq_fictplay (pm : List (List (Int × Int)))
    (hv : validMat pm) (maxIter : ℕ) (ε : ℚ) (r0 c0 : ℕ) :
    fictplayE pm maxIter ε r0 c0 = .ok (fictplay pm maxIter ε r0 c0) := by
  rcases pm with _ | ⟨row0, rest⟩
  · exact absurd hv.1 (lt_irrefl 0)
  have hn0 : ¬ row0.length = 0 := by
    have := hv.2.1
    simp only [List.headD_cons] at this
    omega
  simp only [fictplayE]
  rw [if_neg hn0, if_neg]
  rintro ⟨-, -, row, hrow, hshort⟩
  have := hv.2.2 row hrow
  simp only [List.headD_cons] at this
  omega

/-- C2 counterexample: on the empty matrix (`m = 0 < 1`) all three
algorithms fail with `IndexError` — none performs dimension validation,
and none raises an `InvalidDimension` error. -/
theorem no_invalid_dimension :
    pnashE [] = Except.error PyErr.indexError ∧
      ibrE [] 0 0 = Except.error PyErr.indexError ∧
      fictplayE [] 1 (1 / 2) 0 0 = Except.error PyErr.indexError ∧
      PyErr.indexError ≠ PyErr.invalidDimension :=
  ⟨rfl, rfl, rfl, by decide⟩

/-- C2 amended: none of the three algorithms validates dimensions and no
`InvalidDimension` error exists in the code; on the empty matrix each of
them instead raises `IndexError` when evaluating `len(paymat[0])`,
whatever the remaining arguments are. -/
theorem no_validation_fails_with_index_error :
    pnashE [] = Except.error PyErr.indexError ∧
      (∀ r0 c0 : ℕ, ibrE [] r0 c0 = Except.error PyErr.indexError) ∧
      (∀ (maxIter : ℕ) (ε : ℚ) (r0 c0 : ℕ),
        fictplayE [] maxIter ε r0 c0 = Except.error PyErr.indexError) ∧
      PyErr.indexError ≠ PyErr.invalidDimension :=
  ⟨rfl, fun _ _ => rfl, fun _ _ _ _ => rfl, by decide⟩

end Bimatrix
